import Mathlib

/-!
Shallow embedding of the `SOM` class defined in the notebook
`4-Self_Organizing_Maps/Self-Organizing Feature Maps.ipynb`.

Conventions of the embedding:
* numpy float64 values are modelled as real numbers;
* the weight array `self.weights` of shape `(x_size, y_size, dimen)` is a
  nested list, outermost index first;
* numpy operations that can raise (shape mismatches, `math.log` of a
  non-positive number, division by zero) are modelled by `Option` / `Except`
  layers whose guard conditions are stated where they are defined;
* the implicit global RNG used by `np.random.randint` to initialize the
  weights is modelled as an explicit argument holding the sampled values.
-/

set_option maxHeartbeats 1000000
set_option linter.unusedVariables false

namespace SOMSpec

/-- numpy elementwise subtraction `a - b` of two 1-D arrays along the last
axis, with numpy broadcasting: equal lengths subtract pointwise, and a
length-1 operand is stretched to the other operand's length.  The
incompatible case (both lengths differ and neither is 1) raises in numpy;
callers model that failure in a separate checked layer. -/
noncomputable def bsub (a b : List ℝ) : List ℝ :=
  if a.length = b.length then List.zipWith (fun u w => u - w) a b
  else if a.length = 1 then b.map (fun w => a.headI - w)
  else a.map (fun u => u - b.headI)

/-- squared euclidean distance `np.sum((a - b) ** 2)` along the last axis. -/
noncomputable def sqDist (a b : List ℝ) : ℝ :=
  ((bsub a b).map (fun u => u ^ 2)).sum

/-- the scan loop of `numpy.argmin` over a flattened array: it carries the
position of the next element, the best index and the best value so far, and
updates only on a strict decrease, hence keeps the first occurrence of the
minimum. -/
def argminLoop {α : Type} [LinearOrder α] : List α → ℕ → ℕ → α → ℕ × α
  | [], _, bi, bv => (bi, bv)
  | a :: l, i, bi, bv =>
    if a < bv then argminLoop l (i + 1) i a else argminLoop l (i + 1) bi bv

/-- `numpy.argmin` on a flattened array: the index of the first occurrence
of the minimum.  numpy raises on an empty array; that case is never reached
here and returns 0. -/
def npArgmin {α : Type} [LinearOrder α] : List α → ℕ
  | [] => 0
  | a :: l => (argminLoop l 1 0 a).1

/-- the state of a `SOM` instance: the constructor arguments together with
the weight array `self.weights` of shape `(x_size, y_size, dimen)`. -/
structure SOM where
  x_size : ℕ
  y_size : ℕ
  dimen : ℕ
  weights : List (List (List ℝ))
  num_iter : ℕ
  t_step : ℤ

/-- the weight array has its declared shape. -/
def WF (s : SOM) : Prop :=
  s.weights.length = s.x_size ∧
  ∀ r ∈ s.weights, r.length = s.y_size ∧ ∀ c ∈ r, c.length = s.dimen

/-- `self.map_radius = max(self.weights.shape)/2`; the maximum runs over all
three entries of the numpy shape tuple `(x_size, y_size, dimen)`, the vector
dimensionality included. -/
noncomputable def SOM.map_radius (s : SOM) : ℝ :=
  (max s.x_size (max s.y_size s.dimen) : ℕ) / 2

/-- `self.t_const = self.num_iter/math.log(self.map_radius)`. -/
noncomputable def SOM.t_const (s : SOM) : ℝ :=
  (s.num_iter : ℝ) / Real.log s.map_radius

/-- the decaying learning rate `lr = 0.1 * np.exp(-i/self.num_iter)`
computed in `teach_row`. -/
noncomputable def SOM.learning_rate (s : SOM) (i : ℕ) : ℝ :=
  0.1 * Real.exp (-(i : ℝ) / (s.num_iter : ℝ))

/-- the flattened (C-order) per-cell squared-distance array
`np.sum((self.weights - vector) ** 2, 2)` computed inside `get_bmu`. -/
noncomputable def SOM.distanceFlat (s : SOM) (v : List ℝ) : List ℝ :=
  (s.weights.map (fun r => r.map (fun c => sqDist c v))).flatten

/-- `get_bmu`: `np.unravel_index(distance.argmin(), distance.shape)` for the
shape `(x_size, y_size)`: the C-order flat index k maps to
`(k / y_size, k % y_size)`. -/
noncomputable def SOM.get_bmu (s : SOM) (v : List ℝ) : ℕ × ℕ :=
  (npArgmin (s.distanceFlat v) / s.y_size, npArgmin (s.distanceFlat v) % s.y_size)

/-- `get_bmu_dist`: the `x_size` by `y_size` matrix whose (i, j) entry is the
squared grid distance of cell (i, j) from the BMU of the given vector,
built in the source from `np.dstack((xi, yi)) - np.array(self.get_bmu(vector))`
squared and summed over the last axis. -/
noncomputable def SOM.get_bmu_dist (s : SOM) (v : List ℝ) : List (List ℝ) :=
  (List.range s.x_size).map (fun i : ℕ =>
    (List.range s.y_size).map (fun j : ℕ =>
      ((i : ℝ) - ((s.get_bmu v).1 : ℝ)) ^ 2 + ((j : ℝ) - ((s.get_bmu v).2 : ℝ)) ^ 2))

/-- `get_nbhood_radius`: `self.map_radius * np.exp(-iter_count/self.t_const)`. -/
noncomputable def SOM.get_nbhood_radius (s : SOM) (i : ℕ) : ℝ :=
  s.map_radius * Real.exp (-(i : ℝ) / s.t_const)

/-- `teach_row`: per cell the influence is
`theta = np.exp(-bmu_dist/(2 * nbhood_radius ** 2))` and the returned delta is
`np.expand_dims(theta, 2) * (vector - self.weights)`.  The local `lr` is
computed exactly as in the source and, exactly as in the source, never used:
the returned delta carries no learning-rate factor. -/
noncomputable def SOM.teach_row (s : SOM) (v : List ℝ) (i : ℕ) : List (List (List ℝ)) :=
  let r := s.get_nbhood_radius i
  let bd := s.get_bmu_dist v
  let lr := s.learning_rate i
  List.zipWith
    (fun bdr wr => List.zipWith
      (fun d c => (bsub v c).map (fun u => Real.exp (-d / (2 * r ^ 2)) * u)) bdr wr)
    bd s.weights

/-- pointwise addition of a delta array onto the weight array, the effect of
`self.weights += delta` when the shapes agree. -/
noncomputable def addW (w d : List (List (List ℝ))) : List (List (List ℝ)) :=
  List.zipWith
    (fun wr dr => List.zipWith (fun wc dc => List.zipWith (fun a b => a + b) wc dc) wr dr)
    w d

/-- one body step of the training loop:
`self.weights += self.teach_row(t_set[j], i)`. -/
noncomputable def SOM.teachStep (s : SOM) (v : List ℝ) (i : ℕ) : SOM :=
  SOM.mk s.x_size s.y_size s.dimen (addW s.weights (s.teach_row v i)) s.num_iter s.t_step

/-- `teach`: for i in range(self.num_iter): for j in range(len(t_set)):
`self.weights += self.teach_row(t_set[j], i)`.  The print every 10th epoch is
omitted as pure output. -/
noncomputable def SOM.teach (s : SOM) (ts : List (List ℝ)) : SOM :=
  (List.range s.num_iter).foldl (fun a i => ts.foldl (fun b v => b.teachStep v i) a) s

/-- one body step of the training loop with numpy shape checking.  With a
weight array of last dimension D and an input of length L, the broadcast
subtractions inside `get_bmu` and `teach_row` require `L = D or L = 1 or
D = 1`; the in-place `self.weights +=` then requires the delta (last
dimension D when L is D or 1, else L) to broadcast back onto D.  Combined,
the step succeeds exactly when `L = D or L = 1`; a length-1 input vector is
silently stretched and the update is applied. -/
noncomputable def SOM.teachStepChk (s : SOM) (v : List ℝ) (i : ℕ) : Option SOM :=
  if v.length = s.dimen ∨ v.length = 1 then some (s.teachStep v i) else none

/-- the training loop over the checked step: a numpy exception anywhere
aborts the whole run, modelled by the option monad. -/
noncomputable def SOM.teachChk (s : SOM) (ts : List (List ℝ)) : Option SOM :=
  (List.range s.num_iter).foldlM (fun a i => ts.foldlM (fun b v => SOM.teachStepChk b v i) a) s

/-- `__init__`: the sampling `np.random.randint(256, size=(x,y,d))` is
modelled by the explicit argument w0 holding the sampled weights.  With
natural-number sizes, `math.log(self.map_radius)` raises ValueError exactly
when `map_radius = 0`, that is `max(x, y, d) = 0`, and the division
`self.num_iter/math.log(self.map_radius)` raises ZeroDivisionError exactly
when `log(map_radius) = 0`, that is `max(x, y, d) = 2`.  In every other case
the instance is produced, including `map_radius = 1/2` where the stored time
constant is negative. -/
def SOM.init (x y d N : ℕ) (ts : ℤ) (w0 : List (List (List ℝ))) : Except String SOM :=
  if max x (max y d) = 0 then Except.error ("ValueError: math domain error")
  else if max x (max y d) = 2 then Except.error ("ZeroDivisionError: float division by zero")
  else Except.ok (SOM.mk x y d w0 N ts)

/-- method-call form of `get_bmu`: a Python method receives self and may
reassign its fields; the wrapper returns the method result together with the
state of self after the call.  The body of `get_bmu` contains no assignment
to self, so self is returned unchanged. -/
noncomputable def SOM.get_bmuM (s : SOM) (v : List ℝ) : (ℕ × ℕ) × SOM :=
  (s.get_bmu v, s)

/-- method-call form of `get_bmu_dist`; no assignment to self in the body. -/
noncomputable def SOM.get_bmu_distM (s : SOM) (v : List ℝ) : List (List ℝ) × SOM :=
  (s.get_bmu_dist v, s)

/-- method-call form of `get_nbhood_radius`; no assignment to self in the body. -/
noncomputable def SOM.get_nbhood_radiusM (s : SOM) (i : ℕ) : ℝ × SOM :=
  (s.get_nbhood_radius i, s)

/-- method-call form of `teach_row`; no assignment to self in the body: the
delta is returned, not applied. -/
noncomputable def SOM.teach_rowM (s : SOM) (v : List ℝ) (i : ℕ) : List (List (List ℝ)) × SOM :=
  (s.teach_row v i, s)

/-- all fields of the state other than the weight array. -/
def nonWeightFields (s : SOM) : ℕ × ℕ × ℕ × ℕ × ℤ :=
  (s.x_size, s.y_size, s.dimen, s.num_iter, s.t_step)

/-- the reference vector of the cell at grid coordinate (i, j). -/
def SOM.cell (s : SOM) (i j : ℕ) : List ℝ :=
  (s.weights.getD i []).getD j []

/-- the same state with only the t_step argument replaced. -/
def setTStep (s : SOM) (c : ℤ) : SOM :=
  SOM.mk s.x_size s.y_size s.dimen s.weights s.num_iter c

/-- a 1 x 1 lattice of a single 1-dimensional cell holding 0. -/
noncomputable def som1 : SOM := SOM.mk 1 1 1 [[[0]]] 10 1

/-- the MNIST configuration of the notebook: a 20 x 20 lattice of
784-dimensional cells (the cell contents are irrelevant to the radius). -/
noncomputable def som2 : SOM :=
  SOM.mk 20 20 784 (List.replicate 20 (List.replicate 20 (List.replicate 784 0))) 100 1

/-- a 2 x 2 lattice of 1-dimensional cells all holding the same vector. -/
noncomputable def som3 : SOM := SOM.mk 2 2 1 [[[7], [7]], [[7], [7]]] 10 1

/-- a 6 x 6 lattice of 3-dimensional cells. -/
noncomputable def som4 : SOM :=
  SOM.mk 6 6 3 (List.replicate 6 (List.replicate 6 (List.replicate 3 0))) 10 1

/-- a 1 x 1 lattice of one 3-dimensional cell. -/
noncomputable def som8 : SOM := SOM.mk 1 1 3 [[[1, 2, 3]]] 10 1

/-- the state produced from som8 by one update with the length-1 input [5]. -/
noncomputable def som8after : SOM := SOM.mk 1 1 3 [[[5, 5, 5]]] 10 1

/-- the instance produced by constructing with all three sizes equal to 1. -/
noncomputable def som111 : SOM := SOM.mk 1 1 1 [[[0]]] 10 1

/-! ### List helpers: getD on append, map, range, zipWith, flatten -/

theorem getD_indep {α : Type} (l : List α) :
    ∀ (n : ℕ) (d1 d2 : α), n < l.length → l.getD n d1 = l.getD n d2 := by
  induction l with
  | nil => intro n d1 d2 h; simp at h
  | cons a l ih =>
    intro n d1 d2 h
    cases n with
    | zero => rfl
    | succ n => simpa using ih n d1 d2 (by simpa using h)

theorem getD_append_left {α : Type} (l l' : List α) (d : α) :
    ∀ n, n < l.length → (l ++ l').getD n d = l.getD n d := by
  induction l with
  | nil => intro n h; simp at h
  | cons a l ih =>
    intro n h
    cases n with
    | zero => rfl
    | succ n => simpa using ih n (by simpa using h)

theorem getD_append_right {α : Type} (l l' : List α) (d : α) :
    ∀ n, (l ++ l').getD (l.length + n) d = l'.getD n d := by
  induction l with
  | nil => intro n; simp
  | cons a l ih =>
    intro n
    have h : (a :: l).length + n = (l.length + n) + 1 := by
      simp [List.length_cons]; omega
    rw [h]
    simpa using ih n

theorem getD_map {α β : Type} (f : α → β) (l : List α) (d : α) :
    ∀ n, n < l.length → (l.map f).getD n (f d) = f (l.getD n d) := by
  induction l with
  | nil => intro n h; simp at h
  | cons a l ih =>
    intro n h
    cases n with
    | zero => rfl
    | succ n => simpa using ih n (by simpa using h)

theorem getD_range (n : ℕ) (d : ℕ) :
    ∀ i, i < n → (List.range n).getD i d = i := by
  intro i h
  rw [List.getD_eq_getElem?_getD, List.getElem?_range h]
  rfl

theorem getD_zipWith {α β γ : Type} (f : α → β → γ) (l1 : List α) :
    ∀ (l2 : List β) (n : ℕ) (d1 : α) (d2 : β) (d3 : γ),
      n < l1.length → n < l2.length →
      (List.zipWith f l1 l2).getD n d3 = f (l1.getD n d1) (l2.getD n d2) := by
  induction l1 with
  | nil => intro l2 n d1 d2 d3 h1 h2; simp at h1
  | cons a l1 ih =>
    intro l2 n d1 d2 d3 h1 h2
    cases l2 with
    | nil => simp at h2
    | cons b l2 =>
      cases n with
      | zero => rfl
      | succ n => simpa using ih l2 n d1 d2 d3 (by simpa using h1) (by simpa using h2)

theorem getD_mem {α : Type} (l : List α) :
    ∀ (n : ℕ) (d : α), n < l.length → l.getD n d ∈ l := by
  induction l with
  | nil => intro n d h; simp at h
  | cons a l ih =>
    intro n d h
    cases n with
    | zero => simp
    | succ n =>
      have := ih n d (by simpa using h)
      simpa using Or.inr this

theorem flatten_rect_length {α : Type} (y : ℕ) :
    ∀ rows : List (List α), (∀ r ∈ rows, r.length = y) →
      rows.flatten.length = rows.length * y := by
  intro rows
  induction rows with
  | nil => intro _; simp
  | cons r rows ih =>
    intro h
    have hr : r.length = y := h r (by simp)
    have hrest : ∀ q ∈ rows, q.length = y := fun q hq => h q (by simp [hq])
    simp [List.flatten_cons, hr, ih hrest]
    ring

theorem flatten_rect_getD {α : Type} (y : ℕ) (d : α) :
    ∀ (rows : List (List α)) (i j : ℕ), (∀ r ∈ rows, r.length = y) →
      i < rows.length → j < y →
      rows.flatten.getD (i * y + j) d = (rows.getD i []).getD j d := by
  intro rows
  induction rows with
  | nil => intro i j _ hi _; simp at hi
  | cons r rows ih =>
    intro i j h hi hj
    have hr : r.length = y := h r (by simp)
    have hrest : ∀ q ∈ rows, q.length = y := fun q hq => h q (by simp [hq])
    cases i with
    | zero =>
      rw [List.flatten_cons, zero_mul, zero_add, getD_append_left _ _ _ j (by omega)]
      rfl
    | succ i =>
      have harith : (i + 1) * y + j = r.length + (i * y + j) := by
        rw [hr]; ring
      rw [List.flatten_cons, harith, getD_append_right]
      simpa using ih i j hrest (by simpa using hi) hj

/-! ### Lemmas about the argmin scan loop -/

theorem argminLoop_le {α : Type} [LinearOrder α] (l : List α) :
    ∀ (i bi : ℕ) (bv d : α), (argminLoop l i bi bv).2 ≤ bv ∧
      ∀ k, k < l.length → (argminLoop l i bi bv).2 ≤ l.getD k d := by
  induction l with
  | nil =>
    intro i bi bv d
    exact ⟨le_refl _, fun k hk => absurd hk (by simp)⟩
  | cons a l ih =>
    intro i bi bv d
    by_cases h : a < bv
    · rw [argminLoop, if_pos h]
      refine ⟨le_trans (ih (i + 1) i a d).1 (le_of_lt h), ?_⟩
      intro k hk
      cases k with
      | zero => simpa using (ih (i + 1) i a d).1
      | succ k => simpa using (ih (i + 1) i a d).2 k (by simpa using hk)
    · rw [argminLoop, if_neg h]
      refine ⟨(ih (i + 1) bi bv d).1, ?_⟩
      intro k hk
      cases k with
      | zero =>
        have hba : bv ≤ a := le_of_not_lt h
        simpa using le_trans (ih (i + 1) bi bv d).1 hba
      | succ k => simpa using (ih (i + 1) bi bv d).2 k (by simpa using hk)

theorem argminLoop_mem {α : Type} [LinearOrder α] (l : List α) :
    ∀ (i bi : ℕ) (bv d : α), argminLoop l i bi bv = (bi, bv) ∨
      ∃ m, m < l.length ∧ (argminLoop l i bi bv).1 = i + m ∧
        (argminLoop l i bi bv).2 = l.getD m d := by
  induction l with
  | nil => intro i bi bv d; exact Or.inl rfl
  | cons a l ih =>
    intro i bi bv d
    by_cases h : a < bv
    · rw [argminLoop, if_pos h]
      rcases ih (i + 1) i a d with heq | ⟨m, hm, h1, h2⟩
      · exact Or.inr ⟨0, by simp, by rw [heq]; simp, by rw [heq]; simp⟩
      · exact Or.inr ⟨m + 1, by simpa using hm, by rw [h1]; omega, by simpa using h2⟩
    · rw [argminLoop, if_neg h]
      rcases ih (i + 1) bi bv d with heq | ⟨m, hm, h1, h2⟩
      · exact Or.inl heq
      · exact Or.inr ⟨m + 1, by simpa using hm, by rw [h1]; omega, by simpa using h2⟩

theorem argminLoop_first {α : Type} [LinearOrder α] (l : List α) :
    ∀ (i bi : ℕ) (bv d : α), bi < i →
      ((argminLoop l i bi bv).1 ≠ bi → (argminLoop l i bi bv).2 < bv) ∧
      ∀ k, k < l.length → i + k < (argminLoop l i bi bv).1 →
        (argminLoop l i bi bv).2 < l.getD k d := by
  induction l with
  | nil =>
    intro i bi bv d hbi
    exact ⟨fun hne => absurd rfl hne, fun k hk => absurd hk (by simp)⟩
  | cons a l ih =>
    intro i bi bv d hbi
    by_cases h : a < bv
    · rw [argminLoop, if_pos h]
      have hval : (argminLoop l (i + 1) i a).2 ≤ a := (argminLoop_le l (i + 1) i a d).1
      refine ⟨fun _ => lt_of_le_of_lt hval h, ?_⟩
      intro k hk hlt
      cases k with
      | zero =>
        have hne : (argminLoop l (i + 1) i a).1 ≠ i := by omega
        have := (ih (i + 1) i a d (by omega)).1 hne
        simpa using this
      | succ k =>
        have := (ih (i + 1) i a d (by omega)).2 k (by simpa using hk) (by omega)
        simpa using this
    · rw [argminLoop, if_neg h]
      have hba : bv ≤ a := le_of_not_lt h
      refine ⟨(ih (i + 1) bi bv d (by omega)).1, ?_⟩
      intro k hk hlt
      cases k with
      | zero =>
        have hne : (argminLoop l (i + 1) bi bv).1 ≠ bi := by omega
        have := (ih (i + 1) bi bv d (by omega)).1 hne
        simpa using lt_of_lt_of_le this hba
      | succ k =>
        have := (ih (i + 1) bi bv d (by omega)).2 k (by simpa using hk) (by omega)
        simpa using this

theorem npArgmin_spec {α : Type} [LinearOrder α] (l : List α) (d : α) (hl : 0 < l.length) :
    npArgmin l < l.length ∧
    (∀ k, k < l.length → l.getD (npArgmin l) d ≤ l.getD k d) ∧
    ∀ k, k < npArgmin l → l.getD (npArgmin l) d < l.getD k d := by
  cases l with
  | nil => simp at hl
  | cons a l =>
    have hmem := argminLoop_mem l 1 0 a d
    have hle := argminLoop_le l 1 0 a d
    have hfirst := argminLoop_first l 1 0 a d (by omega)
    have hidx : npArgmin (a :: l) = (argminLoop l 1 0 a).1 := rfl
    have hbound : npArgmin (a :: l) < (a :: l).length := by
      rcases hmem with heq | ⟨m, hm, h1, _⟩
      · rw [hidx, heq]; simp
      · rw [hidx, h1]; simp; omega
    have hval : (a :: l).getD (npArgmin (a :: l)) d = (argminLoop l 1 0 a).2 := by
      rcases hmem with heq | ⟨m, hm, h1, h2⟩
      · rw [hidx, heq]; rfl
      · rw [hidx, h1, h2]
        have : 1 + m = m + 1 := by omega
        rw [this]
        rfl
    refine ⟨hbound, ?_, ?_⟩
    · intro k hk
      rw [hval]
      cases k with
      | zero => simpa using hle.1
      | succ k => simpa using hle.2 k (by simpa using hk)
    · intro k hk
      rw [hval]
      cases k with
      | zero =>
        have hne : (argminLoop l 1 0 a).1 ≠ 0 := by rw [hidx] at hk; omega
        simpa using hfirst.1 hne
      | succ k =>
        have hklen : k < l.length := by
          have := lt_trans hk hbound
          simpa using this
        have : 1 + k < (argminLoop l 1 0 a).1 := by rw [hidx] at hk; omega
        simpa using hfirst.2 k hklen this

/-! ### The flattened distance array of get_bmu -/

theorem distanceFlat_length (s : SOM) (v : List ℝ) (hwf : WF s) :
    (s.distanceFlat v).length = s.x_size * s.y_size := by
  have hrows : ∀ r ∈ s.weights.map (fun r => r.map (fun c => sqDist c v)),
      r.length = s.y_size := by
    intro r hr
    rcases List.mem_map.mp hr with ⟨q, hq, rfl⟩
    simpa using (hwf.2 q hq).1
  rw [SOM.distanceFlat, flatten_rect_length s.y_size _ hrows]
  simp [hwf.1]

theorem distanceFlat_getD (s : SOM) (v : List ℝ) (hwf : WF s) (i j : ℕ)
    (hi : i < s.x_size) (hj : j < s.y_size) :
    (s.distanceFlat v).getD (i * s.y_size + j) 0 = sqDist (s.cell i j) v := by
  have hrows : ∀ r ∈ s.weights.map (fun r => r.map (fun c => sqDist c v)),
      r.length = s.y_size := by
    intro r hr
    rcases List.mem_map.mp hr with ⟨q, hq, rfl⟩
    simpa using (hwf.2 q hq).1
  have hi' : i < (s.weights.map (fun r => r.map (fun c => sqDist c v))).length := by
    simpa [hwf.1] using hi
  rw [SOM.distanceFlat, flatten_rect_getD s.y_size 0 _ i j hrows hi' hj]
  have hmapD : (s.weights.map (fun r => r.map (fun c => sqDist c v))).getD i [] =
      (s.weights.getD i []).map (fun c => sqDist c v) := by
    have := getD_map (fun r : List (List ℝ) => r.map (fun c => sqDist c v)) s.weights [] i
      (by simpa [hwf.1] using hi)
    simpa using this
  rw [hmapD]
  have hrowlen : (s.weights.getD i []).length = s.y_size :=
    (hwf.2 _ (getD_mem s.weights i [] (by simpa [hwf.1] using hi))).1
  have hj' : j < (s.weights.getD i []).length := by omega
  have := getD_map (fun c : List ℝ => sqDist c v) (s.weights.getD i []) [] j hj'
  rw [getD_indep _ j (sqDist [] v) 0 (by simpa using hj')] at this
  rw [this]
  rfl

/-- position and optimality of the scan result of get_bmu. -/
theorem get_bmu_bounds (s : SOM) (v : List ℝ) (hwf : WF s)
    (hx : 0 < s.x_size) (hy : 0 < s.y_size) :
    (s.get_bmu v).1 < s.x_size ∧ (s.get_bmu v).2 < s.y_size ∧
    (s.get_bmu v).1 * s.y_size + (s.get_bmu v).2 = npArgmin (s.distanceFlat v) := by
  have hlen : (s.distanceFlat v).length = s.x_size * s.y_size := distanceFlat_length s v hwf
  have hpos : 0 < (s.distanceFlat v).length := by rw [hlen]; exact Nat.mul_pos hx hy
  have hk : npArgmin (s.distanceFlat v) < s.x_size * s.y_size := by
    have := (npArgmin_spec (s.distanceFlat v) 0 hpos).1
    omega
  refine ⟨?_, ?_, ?_⟩
  · show npArgmin (s.distanceFlat v) / s.y_size < s.x_size
    exact Nat.div_lt_of_lt_mul (by rw [Nat.mul_comm] at hk; exact hk)
  · show npArgmin (s.distanceFlat v) % s.y_size < s.y_size
    exact Nat.mod_lt _ hy
  · show npArgmin (s.distanceFlat v) / s.y_size * s.y_size +
        npArgmin (s.distanceFlat v) % s.y_size = npArgmin (s.distanceFlat v)
    have h := Nat.div_add_mod (npArgmin (s.distanceFlat v)) s.y_size
    rw [Nat.mul_comm] at h
    exact h

/-! ### Claim C3 -/

/-- C3: `get_bmu` returns the coordinate of the cell with globally minimal
squared euclidean distance to the input; on ties the first occurrence in
row-major (C-order) scan wins, so any cell strictly earlier in scan order is
strictly worse; and on a lattice whose cells all hold the same vector the
result is (0, 0). -/
theorem get_bmu_min_first (s : SOM) (v : List ℝ) (hwf : WF s)
    (hx : 0 < s.x_size) (hy : 0 < s.y_size) :
    (s.get_bmu v).1 < s.x_size ∧ (s.get_bmu v).2 < s.y_size ∧
    (∀ i j, i < s.x_size → j < s.y_size →
      sqDist (s.cell (s.get_bmu v).1 (s.get_bmu v).2) v ≤ sqDist (s.cell i j) v) ∧
    (∀ i j, i < s.x_size → j < s.y_size →
      i * s.y_size + j < (s.get_bmu v).1 * s.y_size + (s.get_bmu v).2 →
      sqDist (s.cell (s.get_bmu v).1 (s.get_bmu v).2) v < sqDist (s.cell i j) v) ∧
    ((∀ i j, i < s.x_size → j < s.y_size → s.cell i j = s.cell 0 0) →
      s.get_bmu v = (0, 0)) := by
  obtain ⟨hb1, hb2, hflat⟩ := get_bmu_bounds s v hwf hx hy
  have hlen : (s.distanceFlat v).length = s.x_size * s.y_size := distanceFlat_length s v hwf
  have hpos : 0 < (s.distanceFlat v).length := by rw [hlen]; exact Nat.mul_pos hx hy
  obtain ⟨hkb, hmin, hfirst⟩ := npArgmin_spec (s.distanceFlat v) 0 hpos
  have hidx : ∀ i j, i < s.x_size → j < s.y_size →
      i * s.y_size + j < (s.distanceFlat v).length := by
    intro i j hi hj
    rw [hlen]
    calc i * s.y_size + j < i * s.y_size + s.y_size := by omega
    _ = (i + 1) * s.y_size := by ring
    _ ≤ s.x_size * s.y_size := Nat.mul_le_mul_right _ (by omega)
  have hbval : (s.distanceFlat v).getD (npArgmin (s.distanceFlat v)) 0 =
      sqDist (s.cell (s.get_bmu v).1 (s.get_bmu v).2) v := by
    rw [← hflat, distanceFlat_getD s v hwf _ _ hb1 hb2]
  refine ⟨hb1, hb2, ?_, ?_, ?_⟩
  · intro i j hi hj
    have h := hmin (i * s.y_size + j) (hidx i j hi hj)
    rw [hbval, distanceFlat_getD s v hwf i j hi hj] at h
    exact h
  · intro i j hi hj hlt
    have h := hfirst (i * s.y_size + j) (by rw [← hflat]; exact hlt)
    rw [hbval, distanceFlat_getD s v hwf i j hi hj] at h
    exact h
  · intro hconst
    by_contra hne
    have hkpos : 0 < npArgmin (s.distanceFlat v) := by
      rcases Nat.eq_zero_or_pos (npArgmin (s.distanceFlat v)) with h0 | h
      · exfalso
        apply hne
        have e1 : (s.get_bmu v).1 = 0 := by
          show npArgmin (s.distanceFlat v) / s.y_size = 0
          rw [h0]
          exact Nat.zero_div _
        have e2 : (s.get_bmu v).2 = 0 := by
          show npArgmin (s.distanceFlat v) % s.y_size = 0
          rw [h0]
          exact Nat.zero_mod _
        exact Prod.ext e1 e2
      · exact h
    have hstrict := hfirst 0 hkpos
    have h00 : (s.distanceFlat v).getD 0 0 = sqDist (s.cell 0 0) v := by
      have h := distanceFlat_getD s v hwf 0 0 hx hy
      simpa using h
    rw [hbval, h00] at hstrict
    have hceq : s.cell (s.get_bmu v).1 (s.get_bmu v).2 = s.cell 0 0 := hconst _ _ hb1 hb2
    rw [hceq] at hstrict
    exact lt_irrefl _ hstrict

/-- witness for C3, instantiated at the constant 2 x 2 lattice som3 and the
input [3]. -/
theorem get_bmu_min_first_witness :
    WF som3 ∧ 0 < som3.x_size ∧ 0 < som3.y_size ∧
    ((som3.get_bmu [3]).1 < som3.x_size ∧ (som3.get_bmu [3]).2 < som3.y_size ∧
      (∀ i j, i < som3.x_size → j < som3.y_size →
        sqDist (som3.cell (som3.get_bmu [3]).1 (som3.get_bmu [3]).2) [3] ≤
          sqDist (som3.cell i j) [3]) ∧
      (∀ i j, i < som3.x_size → j < som3.y_size →
        i * som3.y_size + j < (som3.get_bmu [3]).1 * som3.y_size + (som3.get_bmu [3]).2 →
        sqDist (som3.cell (som3.get_bmu [3]).1 (som3.get_bmu [3]).2) [3] <
          sqDist (som3.cell i j) [3]) ∧
      ((∀ i j, i < som3.x_size → j < som3.y_size → som3.cell i j = som3.cell 0 0) →
        som3.get_bmu [3] = (0, 0))) := by
  have h1 : WF som3 := by simp [WF, som3]
  have h2 : 0 < som3.x_size := by norm_num [som3]
  have h3 : 0 < som3.y_size := by norm_num [som3]
  exact ⟨h1, h2, h3, get_bmu_min_first som3 [3] h1 h2 h3⟩

/-! ### Claim C4 -/

/-- C4: with an initial radius above 1 (the regime the spec requires at
construction) and at least one iteration, the neighborhood-radius schedule
starts at map_radius, is strictly decreasing in the iteration index, and
stays strictly positive at every finite iteration. -/
theorem nbhood_radius_schedule (s : SOM) (hr : 1 < s.map_radius) (hn : 0 < s.num_iter) :
    s.get_nbhood_radius 0 = s.map_radius ∧
    (∀ t1 t2 : ℕ, t1 < t2 → s.get_nbhood_radius t2 < s.get_nbhood_radius t1) ∧
    ∀ t : ℕ, 0 < s.get_nbhood_radius t := by
  have hσ : 0 < s.map_radius := lt_trans zero_lt_one hr
  have hc : 0 < s.t_const := by
    rw [SOM.t_const]
    exact div_pos (by exact_mod_cast hn) (Real.log_pos hr)
  refine ⟨?_, ?_, ?_⟩
  · rw [SOM.get_nbhood_radius]
    norm_num
  · intro t1 t2 ht
    rw [SOM.get_nbhood_radius, SOM.get_nbhood_radius]
    have hd : -(t2 : ℝ) / s.t_const < -(t1 : ℝ) / s.t_const := by
      rw [div_lt_div_right hc]
      have : (t1 : ℝ) < (t2 : ℝ) := by exact_mod_cast ht
      linarith
    exact mul_lt_mul_of_pos_left (Real.exp_lt_exp.mpr hd) hσ
  · intro t
    rw [SOM.get_nbhood_radius]
    exact mul_pos hσ (Real.exp_pos _)

/-- witness for C4, instantiated at the 6 x 6 lattice som4 with 10
iterations, whose initial radius is 3. -/
theorem nbhood_radius_schedule_witness :
    1 < som4.map_radius ∧ 0 < som4.num_iter ∧
    (som4.get_nbhood_radius 0 = som4.map_radius ∧
      (∀ t1 t2 : ℕ, t1 < t2 → som4.get_nbhood_radius t2 < som4.get_nbhood_radius t1) ∧
      ∀ t : ℕ, 0 < som4.get_nbhood_radius t) := by
  have h1 : 1 < som4.map_radius := by
    rw [SOM.map_radius]
    norm_num [som4]
  have h2 : 0 < som4.num_iter := by norm_num [som4]
  exact ⟨h1, h2, nbhood_radius_schedule som4 h1 h2⟩

/-! ### Claim C1 -/

/-- C1: on the single-cell lattice som1 (weight vector [0]) with input [1]
at iteration 0, the delta returned by teach_row is [[[1]]]: the full step
theta * (input - weight) with theta = 1 at the BMU.  The claimed nudge
lr(0) * theta * (input - weight) evaluates to 0.1, not 1: the source
computes lr but never multiplies it into the returned delta. -/
theorem update_omits_learning_rate :
    som1.teach_row [1] 0 = [[[(1 : ℝ)]]] ∧
    som1.learning_rate 0 * ((1 : ℝ) - 0) ≠ 1 := by
  constructor
  · have hbmu : som1.get_bmu [1] = (0, 0) := by
      simp [som1, SOM.get_bmu, SOM.distanceFlat, sqDist, bsub, npArgmin, argminLoop]
    have hbd : som1.get_bmu_dist [1] = [[0]] := by
      rw [SOM.get_bmu_dist, hbmu]
      norm_num [som1, List.range_succ]
    simp only [SOM.teach_row]
    rw [hbd]
    simp [som1, bsub]
  · rw [SOM.learning_rate]
    norm_num [som1]

/-! ### Claim C2 -/

/-- C2: for the notebook's own MNIST configuration (20 x 20 lattice of
784-dimensional cells) the stored map_radius is max(20, 20, 784)/2 = 392, not
max(width, height)/2 = 10: the numpy shape maximum includes the vector
dimensionality. -/
theorem map_radius_uses_dimen :
    som2.map_radius = 392 ∧ ((max som2.x_size som2.y_size : ℕ) : ℝ) / 2 ≠ 392 := by
  constructor
  · rw [SOM.map_radius]
    norm_num [som2]
  · norm_num [som2]

/-! ### Helpers for the update rule -/

theorem getD_map_at {α β : Type} (f : α → β) (l : List α) (d : α) (e : β) (n : ℕ)
    (h : n < l.length) : (l.map f).getD n e = f (l.getD n d) := by
  rw [getD_indep (l.map f) n e (f d) (by simpa using h)]
  exact getD_map f l d n h

theorem sqDist_nonneg (a b : List ℝ) : 0 ≤ sqDist a b := by
  apply List.sum_nonneg
  intro u hu
  rcases List.mem_map.mp hu with ⟨w, _, rfl⟩
  exact sq_nonneg w

theorem sqDist_cons (x y : ℝ) (xs ys : List ℝ) (h : xs.length = ys.length) :
    sqDist (x :: xs) (y :: ys) = (x - y) ^ 2 + sqDist xs ys := by
  rw [sqDist, sqDist, bsub, bsub, if_pos (by simp [h]), if_pos h]
  simp

theorem sqDist_self (v : List ℝ) : sqDist v v = 0 := by
  induction v with
  | nil => simp [sqDist, bsub]
  | cons x xs ih =>
    rw [sqDist_cons x x xs xs rfl, ih]
    simp

theorem sqDist_pos_of_ne (w v : List ℝ) (h : w.length = v.length) (hne : w ≠ v) :
    0 < sqDist w v := by
  induction w generalizing v with
  | nil =>
    cases v with
    | nil => exact absurd rfl hne
    | cons y ys => simp at h
  | cons x xs ih =>
    cases v with
    | nil => simp at h
    | cons y ys =>
      have hlen : xs.length = ys.length := by simpa using h
      rw [sqDist_cons x y xs ys hlen]
      by_cases hxy : x = y
      · subst hxy
        have hne2 : xs ≠ ys := fun hEq => hne (by rw [hEq])
        have h3 := ih ys hlen hne2
        have h4 : (x - x) ^ 2 = 0 := by ring
        rw [h4]
        linarith
      · have hsub : x - y ≠ 0 := sub_ne_zero.mpr hxy
        have h1 : 0 < (x - y) ^ 2 := by positivity
        have h2 : 0 ≤ sqDist xs ys := sqDist_nonneg xs ys
        linarith

theorem add_zipWith_sub (w v : List ℝ) (h : w.length = v.length) :
    List.zipWith (fun a b => a + b) w (List.zipWith (fun u c => u - c) v w) = v := by
  induction w generalizing v with
  | nil =>
    cases v with
    | nil => rfl
    | cons y ys => simp at h
  | cons x xs ih =>
    cases v with
    | nil => simp at h
    | cons y ys =>
      have hlen : xs.length = ys.length := by simpa using h
      simp only [List.zipWith_cons_cons]
      rw [ih ys hlen]
      simp

theorem get_bmu_dist_getD (s : SOM) (v : List ℝ) (i j : ℕ)
    (hi : i < s.x_size) (hj : j < s.y_size) :
    ((s.get_bmu_dist v).getD i []).getD j 0 =
      ((i : ℝ) - ((s.get_bmu v).1 : ℝ)) ^ 2 + ((j : ℝ) - ((s.get_bmu v).2 : ℝ)) ^ 2 := by
  rw [SOM.get_bmu_dist]
  rw [getD_map_at _ (List.range s.x_size) 0 [] i (by simpa using hi)]
  rw [getD_range s.x_size 0 i hi]
  rw [getD_map_at _ (List.range s.y_size) 0 0 j (by simpa using hj)]
  rw [getD_range s.y_size 0 j hj]

theorem get_bmu_dist_length (s : SOM) (v : List ℝ) :
    (s.get_bmu_dist v).length = s.x_size := by
  rw [SOM.get_bmu_dist]
  simp

theorem get_bmu_dist_row_length (s : SOM) (v : List ℝ) (i : ℕ) (hi : i < s.x_size) :
    ((s.get_bmu_dist v).getD i []).length = s.y_size := by
  rw [SOM.get_bmu_dist]
  rw [getD_map_at _ (List.range s.x_size) 0 [] i (by simpa using hi)]
  simp

/-- teach_row with its local lets unfolded. -/
theorem teach_row_eq (s : SOM) (v : List ℝ) (t : ℕ) :
    s.teach_row v t = List.zipWith
      (fun bdr wr => List.zipWith
        (fun d c => (bsub v c).map (fun u =>
          Real.exp (-d / (2 * s.get_nbhood_radius t ^ 2)) * u)) bdr wr)
      (s.get_bmu_dist v) s.weights := rfl

theorem teach_row_length (s : SOM) (v : List ℝ) (t : ℕ) (hwf : WF s) :
    (s.teach_row v t).length = s.x_size := by
  rw [teach_row_eq]
  simp [get_bmu_dist_length, hwf.1]

theorem teach_row_cell (s : SOM) (v : List ℝ) (t : ℕ) (hwf : WF s) (i j : ℕ)
    (hi : i < s.x_size) (hj : j < s.y_size) :
    ((s.teach_row v t).getD i []).getD j [] =
      (bsub v (s.cell i j)).map (fun u =>
        Real.exp (-(((s.get_bmu_dist v).getD i []).getD j 0) /
          (2 * s.get_nbhood_radius t ^ 2)) * u) := by
  have hwlen : s.weights.length = s.x_size := hwf.1
  have hrowW : (s.weights.getD i []).length = s.y_size :=
    (hwf.2 _ (getD_mem s.weights i [] (by omega))).1
  have hbdlen : (s.get_bmu_dist v).length = s.x_size := get_bmu_dist_length s v
  have hbdrow : ((s.get_bmu_dist v).getD i []).length = s.y_size :=
    get_bmu_dist_row_length s v i hi
  have e1 : (s.teach_row v t).getD i [] = List.zipWith
      (fun d c => (bsub v c).map (fun u =>
        Real.exp (-d / (2 * s.get_nbhood_radius t ^ 2)) * u))
      ((s.get_bmu_dist v).getD i []) (s.weights.getD i []) := by
    rw [teach_row_eq]
    exact getD_zipWith _ _ _ i [] [] [] (by omega) (by omega)
  rw [e1]
  have e2 := getD_zipWith
    (fun d c => (bsub v c).map (fun u =>
      Real.exp (-d / (2 * s.get_nbhood_radius t ^ 2)) * u))
    ((s.get_bmu_dist v).getD i []) (s.weights.getD i []) j 0 [] []
    (by omega) (by omega)
  rw [e2]
  rfl

theorem teach_row_row_length (s : SOM) (v : List ℝ) (t : ℕ) (hwf : WF s) (i : ℕ)
    (hi : i < s.x_size) :
    ((s.teach_row v t).getD i []).length = s.y_size := by
  have hwlen : s.weights.length = s.x_size := hwf.1
  have hrowW : (s.weights.getD i []).length = s.y_size :=
    (hwf.2 _ (getD_mem s.weights i [] (by omega))).1
  have hbdlen : (s.get_bmu_dist v).length = s.x_size := get_bmu_dist_length s v
  have hbdrow : ((s.get_bmu_dist v).getD i []).length = s.y_size :=
    get_bmu_dist_row_length s v i hi
  have e1 : (s.teach_row v t).getD i [] = List.zipWith
      (fun d c => (bsub v c).map (fun u =>
        Real.exp (-d / (2 * s.get_nbhood_radius t ^ 2)) * u))
      ((s.get_bmu_dist v).getD i []) (s.weights.getD i []) := by
    rw [teach_row_eq]
    exact getD_zipWith _ _ _ i [] [] [] (by omega) (by omega)
  rw [e1, List.length_zipWith, hbdrow, hrowW, min_self]

theorem teachStep_cell (s : SOM) (v : List ℝ) (t : ℕ) (hwf : WF s) (i j : ℕ)
    (hi : i < s.x_size) (hj : j < s.y_size) :
    (s.teachStep v t).cell i j =
      List.zipWith (fun a b => a + b) (s.cell i j)
        (((s.teach_row v t).getD i []).getD j []) := by
  have hwlen : s.weights.length = s.x_size := hwf.1
  have hrowW : (s.weights.getD i []).length = s.y_size :=
    (hwf.2 _ (getD_mem s.weights i [] (by omega))).1
  have htlen : (s.teach_row v t).length = s.x_size := teach_row_length s v t hwf
  have htrow : ((s.teach_row v t).getD i []).length = s.y_size :=
    teach_row_row_length s v t hwf i hi
  show ((addW s.weights (s.teach_row v t)).getD i []).getD j [] = _
  have e1 : (addW s.weights (s.teach_row v t)).getD i [] = List.zipWith
      (fun wc dc => List.zipWith (fun a b => a + b) wc dc)
      (s.weights.getD i []) ((s.teach_row v t).getD i []) := by
    rw [addW]
    exact getD_zipWith _ _ _ i [] [] [] (by omega) (by omega)
  rw [e1]
  have e2 := getD_zipWith (fun wc dc => List.zipWith (fun a b => a + b) wc dc)
    (s.weights.getD i []) ((s.teach_row v t).getD i []) j [] [] []
    (by omega) (by omega)
  rw [e2]
  rfl

/-! ### Claim C6 -/

/-- C6: one update step moves the BMU cell strictly closer (by squared
euclidean distance) to the input vector, provided it did not already equal
it.  In the code the BMU cell is set exactly to the input, since theta = 1 at
the BMU and the learning-rate factor is absent from the applied delta. -/
theorem bmu_moves_closer (s : SOM) (v : List ℝ) (t : ℕ) (hwf : WF s)
    (hx : 0 < s.x_size) (hy : 0 < s.y_size) (hv : v.length = s.dimen)
    (hlr : 0 < s.learning_rate t)
    (hne : s.cell (s.get_bmu v).1 (s.get_bmu v).2 ≠ v) :
    sqDist ((s.teachStep v t).cell (s.get_bmu v).1 (s.get_bmu v).2) v <
      sqDist (s.cell (s.get_bmu v).1 (s.get_bmu v).2) v := by
  obtain ⟨hb1, hb2, _⟩ := get_bmu_bounds s v hwf hx hy
  have hwlen : s.weights.length = s.x_size := hwf.1
  have hcell_len : (s.cell (s.get_bmu v).1 (s.get_bmu v).2).length = s.dimen := by
    have hrow := getD_mem s.weights (s.get_bmu v).1 [] (by omega)
    have h1 := hwf.2 _ hrow
    have hc := getD_mem (s.weights.getD (s.get_bmu v).1 []) (s.get_bmu v).2 []
      (by rw [h1.1]; exact hb2)
    exact h1.2 _ hc
  have hbd0 : ((s.get_bmu_dist v).getD (s.get_bmu v).1 []).getD (s.get_bmu v).2 0 = 0 := by
    rw [get_bmu_dist_getD s v _ _ hb1 hb2]
    ring
  have hdelta : ((s.teach_row v t).getD (s.get_bmu v).1 []).getD (s.get_bmu v).2 [] =
      List.zipWith (fun u c => u - c) v (s.cell (s.get_bmu v).1 (s.get_bmu v).2) := by
    rw [teach_row_cell s v t hwf _ _ hb1 hb2, hbd0]
    rw [bsub, if_pos (by rw [hv, hcell_len])]
    simp
  have hnew : (s.teachStep v t).cell (s.get_bmu v).1 (s.get_bmu v).2 = v := by
    rw [teachStep_cell s v t hwf _ _ hb1 hb2, hdelta]
    exact add_zipWith_sub _ v (by rw [hcell_len, hv])
  rw [hnew, sqDist_self]
  exact sqDist_pos_of_ne _ v (by rw [hcell_len, hv]) hne

/-- witness for C6, instantiated at the single-cell lattice som1 (weight [0])
and the input [1] at iteration 0. -/
theorem bmu_moves_closer_witness :
    WF som1 ∧ 0 < som1.x_size ∧ 0 < som1.y_size ∧ ([(1 : ℝ)]).length = som1.dimen ∧
    0 < som1.learning_rate 0 ∧
    som1.cell (som1.get_bmu [1]).1 (som1.get_bmu [1]).2 ≠ [1] ∧
    sqDist ((som1.teachStep [1] 0).cell (som1.get_bmu [1]).1 (som1.get_bmu [1]).2) [1] <
      sqDist (som1.cell (som1.get_bmu [1]).1 (som1.get_bmu [1]).2) [1] := by
  have h1 : WF som1 := by simp [WF, som1]
  have h2 : 0 < som1.x_size := by norm_num [som1]
  have h3 : 0 < som1.y_size := by norm_num [som1]
  have h4 : ([(1 : ℝ)]).length = som1.dimen := by norm_num [som1]
  have h5 : 0 < som1.learning_rate 0 := by
    rw [SOM.learning_rate]
    positivity
  have hbmu : som1.get_bmu [1] = (0, 0) := by
    simp [som1, SOM.get_bmu, SOM.distanceFlat, sqDist, bsub, npArgmin, argminLoop]
  have h6 : som1.cell (som1.get_bmu [1]).1 (som1.get_bmu [1]).2 ≠ [1] := by
    rw [hbmu]
    simp [SOM.cell, som1]
  exact ⟨h1, h2, h3, h4, h5, h6, bmu_moves_closer som1 [1] 0 h1 h2 h3 h4 h5 h6⟩

/-! ### Claim C5 -/

theorem foldl_flatMap {α β γ : Type} (g : α → List β) (f : γ → β → γ) :
    ∀ (L : List α) (c : γ),
      (L.flatMap g).foldl f c = L.foldl (fun a x => (g x).foldl f a) c := by
  intro L
  induction L with
  | nil => intro c; rfl
  | cons a L ih =>
    intro c
    rw [List.flatMap_cons, List.foldl_append, ih, List.foldl_cons]

theorem length_flatMap_const {α β : Type} (g : α → List β) (n : ℕ) :
    ∀ L : List α, (∀ x ∈ L, (g x).length = n) → (L.flatMap g).length = L.length * n := by
  intro L
  induction L with
  | nil => intro _; simp
  | cons a L ih =>
    intro h
    rw [List.flatMap_cons, List.length_append, h a (by simp),
      ih (fun x hx => h x (by simp [hx]))]
    simp [List.length_cons]
    ring

/-- C5: the training loop equals the sequential left fold of single update
steps over the trace of (epoch, sample) pairs: epochs 0..num_iter-1 in the
outer position, the samples in their given order in the inner position, every
pair of one epoch carrying that epoch's index for the decay schedules, and
the state threaded from each update into the next one; the trace has exactly
num_iter * |samples| entries, one per update application. -/
theorem teach_trace (s : SOM) (ts : List (List ℝ)) :
    s.teach ts =
      ((List.range s.num_iter).flatMap (fun t => ts.map (fun v => (t, v)))).foldl
        (fun a p => a.teachStep p.2 p.1) s ∧
    ((List.range s.num_iter).flatMap (fun t => ts.map (fun v => (t, v)))).length =
      s.num_iter * ts.length := by
  constructor
  · rw [SOM.teach, foldl_flatMap]
    congr 1
    funext a t
    rw [List.foldl_map]
  · rw [length_flatMap_const _ ts.length (List.range s.num_iter) (fun x _ => by simp)]
    simp

/-! ### Claim C7 -/

/-- C7 counterexample: constructing with all three sizes 1 gives
map_radius = 1/2 ≤ 1, yet construction succeeds and an instance is produced
(the source stores a negative time constant and raises nothing). -/
theorem init_accepts_small_radius :
    SOM.init 1 1 1 10 1 [[[0]]] = Except.ok som111 ∧ som111.map_radius ≤ 1 := by
  constructor
  · simp [SOM.init, som111]
  · rw [SOM.map_radius]
    norm_num [som111]

/-- C7 amended: construction fails exactly when map_radius is 0 (log domain
error, all sizes zero) or 1 (division by zero, max size 2); every other
argument combination, including those with map_radius strictly between 0 and
1, produces an instance. -/
theorem init_ok_iff (x y d N : ℕ) (c : ℤ) (w0 : List (List (List ℝ))) :
    (∃ s, SOM.init x y d N c w0 = Except.ok s) ↔
      ¬(((max x (max y d) : ℕ) : ℝ) / 2 = 0 ∨ ((max x (max y d) : ℕ) : ℝ) / 2 = 1) := by
  have h0 : (((max x (max y d) : ℕ) : ℝ) / 2 = 0) ↔ max x (max y d) = 0 := by
    constructor
    · intro h
      rcases div_eq_zero_iff.mp h with h | h
      · exact_mod_cast h
      · norm_num at h
    · intro h
      rw [h]
      norm_num
  have h1 : (((max x (max y d) : ℕ) : ℝ) / 2 = 1) ↔ max x (max y d) = 2 := by
    rw [div_eq_iff (by norm_num : (2 : ℝ) ≠ 0), one_mul]
    norm_cast
  have key : (∃ s, SOM.init x y d N c w0 = Except.ok s) ↔
      (max x (max y d) ≠ 0 ∧ max x (max y d) ≠ 2) := by
    rw [SOM.init]
    by_cases hz : max x (max y d) = 0
    · rw [if_pos hz]
      simp [hz]
    · rw [if_neg hz]
      by_cases h2 : max x (max y d) = 2
      · rw [if_pos h2]
        simp [hz, h2]
      · rw [if_neg h2]
        simp [hz, h2]
  rw [key, not_or]
  exact (and_congr (not_congr h0) (not_congr h1)).symm

/-! ### Claim C8 -/

/-- C8 counterexample: on the 1 x 1 lattice of one 3-dimensional cell, the
length-1 input [5] has mismatched length, yet the checked update succeeds:
numpy broadcasting stretches the scalar and the update is applied, changing
the weights. -/
theorem mismatched_broadcast_update :
    som8.teachStepChk [5] 0 = some som8after ∧
    ([(5 : ℝ)]).length ≠ som8.dimen ∧ som8after.weights ≠ som8.weights := by
  refine ⟨?_, by norm_num [som8], by norm_num [som8, som8after]⟩
  have hbmu : som8.get_bmu [5] = (0, 0) := by
    simp [som8, SOM.get_bmu, SOM.distanceFlat, sqDist, bsub, npArgmin, argminLoop]
  have hbd : som8.get_bmu_dist [5] = [[0]] := by
    rw [SOM.get_bmu_dist, hbmu]
    norm_num [som8, List.range_succ]
  have hw : addW som8.weights (som8.teach_row [5] 0) = [[[5, 5, 5]]] := by
    rw [teach_row_eq, hbd]
    norm_num [som8, bsub, addW]
  have hstep : som8.teachStep [5] 0 = som8after := by
    simp only [SOM.teachStep]
    rw [hw]
    rfl
  rw [SOM.teachStepChk, if_pos (by norm_num [som8]), hstep]

/-- C8 amended: an input vector whose length differs from the configured
dimensionality and is not 1 makes the checked update step fail with none,
and any such sample in the training set makes the whole checked run return
none; but the length-1 exception of the counterexample is real, so the
failure does not cover every mismatched length. -/
theorem mismatch_aborts :
    (∀ (s : SOM) (v : List ℝ) (i : ℕ), v.length ≠ s.dimen → v.length ≠ 1 →
      s.teachStepChk v i = none) ∧
    (∀ (s : SOM) (ts : List (List ℝ)), 0 < s.num_iter →
      (∃ v ∈ ts, v.length ≠ s.dimen ∧ v.length ≠ 1) → s.teachChk ts = none) := by
  have hstep : ∀ (s : SOM) (v : List ℝ) (i : ℕ), v.length ≠ s.dimen → v.length ≠ 1 →
      s.teachStepChk v i = none := by
    intro s v i h1 h2
    rw [SOM.teachStepChk, if_neg]
    rintro (h | h)
    · exact h1 h
    · exact h2 h
  refine ⟨hstep, ?_⟩
  intro s ts hN hbad
  have hdim : ∀ (a : SOM) (v : List ℝ) (i : ℕ) (b : SOM),
      a.teachStepChk v i = some b → b.dimen = a.dimen := by
    intro a v i b h
    rw [SOM.teachStepChk] at h
    by_cases hc : v.length = a.dimen ∨ v.length = 1
    · rw [if_pos hc] at h
      cases h
      rfl
    · rw [if_neg hc] at h
      cases h
  have hepoch : ∀ (l : List (List ℝ)) (a : SOM) (i : ℕ),
      (∃ v ∈ l, v.length ≠ a.dimen ∧ v.length ≠ 1) →
      l.foldlM (fun b v => SOM.teachStepChk b v i) a = none := by
    intro l
    induction l with
    | nil =>
      intro a i h
      simp at h
    | cons v l ih =>
      intro a i h
      rw [List.foldlM_cons]
      rcases h with ⟨u, hu, hlen⟩
      rcases List.mem_cons.mp hu with rfl | hul
      · rw [hstep a u i hlen.1 hlen.2]
        rfl
      · cases hc : a.teachStepChk v i with
        | none => rfl
        | some b =>
          have hd := hdim a v i b hc
          exact ih b i ⟨u, hul, by rw [hd]; exact hlen.1, hlen.2⟩
  rw [SOM.teachChk]
  obtain ⟨n, hn⟩ : ∃ n, s.num_iter = n + 1 := ⟨s.num_iter - 1, by omega⟩
  rw [hn, List.range_succ_eq_map, List.foldlM_cons]
  rw [hepoch ts s 0 hbad]
  rfl

/-- witness for the amended C8 update-level statement at the concrete
lattice som8 and the mismatched length-2 input [5, 6]. -/
theorem mismatch_aborts_witness :
    ([(5 : ℝ), 6]).length ≠ som8.dimen ∧ ([(5 : ℝ), 6]).length ≠ 1 ∧
    som8.teachStepChk [5, 6] 0 = none := by
  have h1 : ([(5 : ℝ), 6]).length ≠ som8.dimen := by norm_num [som8]
  have h2 : ([(5 : ℝ), 6]).length ≠ 1 := by norm_num
  exact ⟨h1, h2, mismatch_aborts.1 som8 [5, 6] 0 h1 h2⟩

/-! ### Claim C9 -/

/-- C9: the t_step constructor argument is dead state: training a state that
differs only in t_step gives the same trained lattice (the whole result
differs only in the stored t_step itself). -/
theorem t_step_irrelevant (s : SOM) (c : ℤ) (ts : List (List ℝ)) :
    (setTStep s c).teach ts = setTStep (s.teach ts) c := by
  have hstep : ∀ (a : SOM) (v : List ℝ) (i : ℕ),
      (setTStep a c).teachStep v i = setTStep (a.teachStep v i) c := fun a v i => rfl
  have hinner : ∀ (l : List (List ℝ)) (i : ℕ) (a : SOM),
      l.foldl (fun b v => b.teachStep v i) (setTStep a c) =
        setTStep (l.foldl (fun b v => b.teachStep v i) a) c := by
    intro l i
    induction l with
    | nil => intro a; rfl
    | cons v l ih =>
      intro a
      rw [List.foldl_cons, List.foldl_cons, hstep, ih]
  have houter : ∀ (L : List ℕ) (a : SOM),
      L.foldl (fun b i => ts.foldl (fun b2 v => b2.teachStep v i) b) (setTStep a c) =
        setTStep (L.foldl (fun b i => ts.foldl (fun b2 v => b2.teachStep v i) b) a) c := by
    intro L
    induction L with
    | nil => intro a; rfl
    | cons i L ih =>
      intro a
      rw [List.foldl_cons, List.foldl_cons, hinner, ih]
  rw [SOM.teach, SOM.teach]
  exact houter (List.range s.num_iter) s

/-! ### Claim C10 -/

/-- C10: the method-call forms of get_bmu, get_bmu_dist, get_nbhood_radius
and teach_row return self unchanged; teach_row returns the delta while the
application of the delta happens in the loop body step; and teach changes no
field other than the weight array. -/
theorem frame_effects :
    (∀ (s : SOM) (v : List ℝ), (s.get_bmuM v).2 = s) ∧
    (∀ (s : SOM) (v : List ℝ), (s.get_bmu_distM v).2 = s) ∧
    (∀ (s : SOM) (i : ℕ), (s.get_nbhood_radiusM i).2 = s) ∧
    (∀ (s : SOM) (v : List ℝ) (i : ℕ), (s.teach_rowM v i).2 = s) ∧
    (∀ (s : SOM) (v : List ℝ) (i : ℕ), (s.teach_rowM v i).1 = s.teach_row v i ∧
      s.teachStep v i = SOM.mk s.x_size s.y_size s.dimen
        (addW s.weights (s.teach_row v i)) s.num_iter s.t_step) ∧
    ∀ (s : SOM) (ts : List (List ℝ)), nonWeightFields (s.teach ts) = nonWeightFields s := by
  refine ⟨fun s v => rfl, fun s v => rfl, fun s i => rfl, fun s v i => rfl,
    fun s v i => ⟨rfl, rfl⟩, ?_⟩
  intro s ts
  have hstep : ∀ (a : SOM) (v : List ℝ) (i : ℕ),
      nonWeightFields (a.teachStep v i) = nonWeightFields a := fun a v i => rfl
  have hinner : ∀ (l : List (List ℝ)) (i : ℕ) (a : SOM),
      nonWeightFields (l.foldl (fun b v => b.teachStep v i) a) = nonWeightFields a := by
    intro l i
    induction l with
    | nil => intro a; rfl
    | cons v l ih =>
      intro a
      rw [List.foldl_cons, ih, hstep]
  have houter : ∀ (L : List ℕ) (a : SOM),
      nonWeightFields
          (L.foldl (fun b i => ts.foldl (fun b2 v => b2.teachStep v i) b) a) =
        nonWeightFields a := by
    intro L
    induction L with
    | nil => intro a; rfl
    | cons i L ih =>
      intro a
      rw [List.foldl_cons, ih, hinner]
  exact houter (List.range s.num_iter) s

end SOMSpec
